import Mathlib

/-!
Verification of the synchronization core of ActualVim (`view.py`).

The host editor document is modelled as a list of lines (`Doc`); a *point* is a
character offset into the flat text obtained by joining the lines with `'\n'`
(this is exactly the host editor's addressing: points and `rowcol`/`text_point`
count characters, while the engine addresses columns in UTF-8 bytes).

Host-editor API primitives (`text_point`, `rowcol`, `substr`, `line`,
`replace`) are external collaborators of the source; they are modelled here by
their documented character-offset semantics.  Fallible operations (Python code
that can raise, e.g. a `UnicodeDecodeError` from decoding a byte prefix that
ends mid-character) return `Option`.
-/

namespace ActualVim

abbrev Line := List Char
abbrev Doc := List Line

/-- The flat character stream of the document: lines joined with `'\n'`. -/
def docChars : Doc → List Char
  | [] => []
  | [l] => l
  | l :: l2 :: ls => l ++ '\n' :: docChars (l2 :: ls)

/-- Document size in characters (the host's `view.size()`). -/
def docLen (d : Doc) : Nat := (docChars d).length

/-- The line at row `r` (empty when out of range; claims only use valid rows). -/
def rowOf (d : Doc) (r : Nat) : Line := (d.get? r).getD []

/-- Character length of row `r`. -/
def rowLen (d : Doc) (r : Nat) : Nat := (rowOf d r).length

/-- Point of the first character of row `r` (each earlier line contributes its
length plus one for the newline). -/
def lineStart : Doc → Nat → Nat
  | _, 0 => 0
  | [], _ + 1 => 0
  | l :: ls, r + 1 => l.length + 1 + lineStart ls r

/-- Models the host `view.text_point(row, col)`: the point `col` characters past
the start of row `row`, clamped to the document size. -/
def text_point (d : Doc) (row col : Nat) : Nat :=
  min (lineStart d row + col) (docLen d)

/-- Models the host `view.rowcol(point)`: the row containing `point` and the
character column within that row (clamped at the end of the document). -/
def rowcol : Doc → Nat → Nat × Nat
  | [], _ => (0, 0)
  | [l], p => (0, min p l.length)
  | l :: l2 :: ls, p =>
    if p ≤ l.length then (0, p)
    else
      let rc := rowcol (l2 :: ls) (p - (l.length + 1))
      (rc.1 + 1, rc.2)

/-- Models the host `view.substr(sublime.Region(a, b))`: the characters between
the two points (a region is normalized via begin/end). -/
def substr (d : Doc) (a b : Nat) : List Char :=
  ((docChars d).drop (min a b)).take (max a b - min a b)

/-- Models the host `view.line(point)`: the (start, end) points of the line
containing `point`, excluding the trailing newline. -/
def lineRegion (d : Doc) (point : Nat) : Nat × Nat :=
  let r := (rowcol d point).1
  (lineStart d r, lineStart d r + rowLen d r)

/-- UTF-8 byte length of a character sequence (`len(s.encode('utf-8'))`). -/
def utf8Len (l : List Char) : Nat := (l.map Char.utf8Size).sum

/-- Number of characters encoded by the first `b` bytes of the UTF-8 encoding
of `l` (`len(l.encode('utf-8')[:b].decode('utf-8'))`).  Returns `none` when the
byte prefix ends in the middle of a character (Python raises
`UnicodeDecodeError`); like the Python slice, a byte count running past the end
of the encoding is clamped. -/
def decodeBytesLen : List Char → Nat → Option Nat
  | _, 0 => some 0
  | [], _ + 1 => some 0
  | c :: cs, b + 1 =>
    if c.utf8Size ≤ b + 1 then (decodeBytesLen cs (b + 1 - c.utf8Size)).map (· + 1)
    else none

/-- `ActualVim.vim_text_point` (view.py:150-155): convert a 0-based
(row, byte column) coming from the engine into a host point, by taking `col`
characters from the row start, truncating their UTF-8 encoding to `col` bytes
and decoding back. -/
def vim_text_point (d : Doc) (row col : Nat) : Option Nat :=
  let pos := text_point d row 0
  let line := substr d pos (pos + col)
  (decodeBytesLen line col).map fun vcol => text_point d row vcol

/-- `ActualVim.vim_rowcol` (view.py:157-162): convert a host point into the
0-based (row, byte column) representation used by the engine. -/
def vim_rowcol (d : Doc) (point : Nat) : Nat × Nat :=
  let rc := rowcol d point
  let line := substr d (point - rc.2) point
  (rc.1, utf8Len (line.take rc.2))

/-- Modelled from the spec: `neo.MODES` (the engine collaborator's table mapping
engine mode tags to mode names; `neo.py` is not under src/).  The spec's mode
set is {normal, insert, visual-char, visual-line, visual-block, replace,
command, …}; the source dispatches on the names "visual", "visual line" and
"visual block", with every other known tag falling through to the naive
two-point decode. -/
def MODES (m : String) : Option String :=
  if m = "v" then some "visual"
  else if m = "V" then some "visual line"
  else if m = "<c-v>" then some "visual block"
  else if m = "n" then some "normal"
  else if m = "i" then some "insert"
  else none

/-- Python tuple comparison `x > y` on pairs of numbers (lexicographic). -/
def tupGt (x y : Nat × Nat) : Bool :=
  if y.1 < x.1 then true
  else if x.1 = y.1 then decide (y.2 < x.2)
  else false

/-- `ActualVim.visual` (view.py:164-213): decode the engine's
(mode, anchor, cursor) — rows/columns 0-based, columns in bytes — into a list
of host regions.  `none` models the `UnicodeDecodeError` raised by
`vim_text_point` on a byte column that ends mid-character. -/
def visual (d : Doc) (mode : String) (a b : Nat × Nat) : Option (List (Nat × Nat)) :=
  let sr := a.1; let sc := a.2
  let er := b.1; let ec := b.2
  match vim_text_point d sr sc, vim_text_point d er ec with
  | some pa, some pb =>
    let name := MODES mode
    some (
      if name = some "visual line" then
        -- visual line mode
        if pb < pa then [((lineRegion d pa).2, (lineRegion d pb).1)]
        else [((lineRegion d pa).1, (lineRegion d pb).2)]
      else if name = some "visual" then
        -- visual mode
        if pb < pa then [(pa + 1, pb)] else [(pa, pb + 1)]
      else if name = some "visual block" then
        -- visual block mode
        let left := min sc ec
        let right := max sc ec + 1
        let top := min sr er
        let bot := max sr er
        (List.range' top (bot + 1 - top)).foldl (fun regions i =>
          -- `_, end = view.rowcol(line.b)`: the character length of row i
          let e := rowLen d i
          if left ≤ e then
            let ra := text_point d i left
            let rb := text_point d i (min right e)
            regions ++ [if ec < sc then (rb, ra) else (ra, rb)]
          else regions) []
      else [(pa, pb)])
  | _, _ => none

/-!  ## The per-document synchronization state

`AVState` carries the fields of the `ActualVim` binding that the
synchronization core reads or writes, together with the host document content
(`text`, a flat character list), the host change counter and the current host
selection.  External effects — calls into the engine and mutations of the host
view — are recorded in an `Op` trace; an operation returning
`none` models a Python exception escaping the call. -/

/-- Engine responses consumed during a sync pass: `buf_tick`, the engine
buffer lines, the `status()` dictionary fields the core reads, and whether
`press` reports the engine ready.  Modelled from the spec (§6): the engine
collaborator interface lives in `neo.py`, which is not under src/. -/
structure EngineState where
  tick : Nat
  bufLines : List Line
  mode : String
  vline : Nat
  vcol : Nat
  cline : Nat
  ccol : Nat
  pressReady : Bool
  deriving Repr, DecidableEq

/-- Externally visible effects of a sync pass: engine calls and host view
mutations. -/
inductive Op where
  | forceReady
  | bufSetLines (lines : List Line)
  | select1 (b : Nat × Nat)
  | select (a b : Nat × Nat) (mode : String)
  | replaceRegion (a b : Nat) (text : List Char)
  | setSel (regions : List (Nat × Nat))
  | ensureVisible
  | setIndentSettings
  | setStatusLine
  | updateSettings
  | resize
  | settingsToVim
  | pressKey (k : String)
  deriving Repr, DecidableEq

/-- The fields of an `ActualVim` binding used by the synchronization core
(view.py:37-69), plus the host view state it reads: document text, change
counter, selection, and the relevant settings. -/
structure AVState where
  /-- `neo._loaded` -/
  loaded : Bool
  /-- the view settings `actual_mode` -/
  actualMode : Bool
  /-- the view settings `actual_intercept` -/
  actualIntercept : Bool
  /-- `self.buf` — the engine buffer handle, `none` before first activation -/
  buf : Option Nat
  /-- `self.sub_changes` -/
  subChanges : Option Nat
  /-- `self.vim_changes` -/
  vimChanges : Option Nat
  /-- `self.last_size` -/
  lastSize : Option Nat
  /-- `self.last_sel` -/
  lastSel : Option (List (Nat × Nat))
  /-- `self.keyq` -/
  keyq : List String
  /-- `self.block` -/
  block : Bool
  /-- `self.block_hit` -/
  blockHit : Bool
  /-- `self.first_scroll` -/
  firstScroll : Bool
  /-- `self.drag_select` -/
  dragSelect : Option String
  /-- host document content as a flat character list -/
  text : List Char
  /-- host `view.change_count()` -/
  changeCount : Nat
  /-- host `view.sel()` as (a, b) offset pairs, in host order -/
  sel : List (Nat × Nat)
  /-- the global setting `indent_priority` -/
  indentPriority : String
  deriving Repr, DecidableEq

/-- The document as the host view presents it: the flat text split at
newlines (`str.split('\n')` semantics: always at least one line). -/
def linesOf : List Char → Doc
  | [] => [[]]
  | c :: cs =>
    match linesOf cs with
    | [] => [[c]]
    | l :: ls => if c = '\n' then [] :: l :: ls else (c :: l) :: ls

/-- The view of the state's document as a `Doc`. -/
def AVState.doc (st : AVState) : Doc := linesOf st.text

/-- `view.size()`. -/
def AVState.size (st : AVState) : Nat := st.text.length

/-- `ActualVim.actual` (view.py:140-142). -/
def actual (st : AVState) : Bool :=
  st.loaded && st.actualMode && st.actualIntercept

/-- `ActualVim.changed` (view.py:215-221): the push-needed predicate. -/
def changed (st : AVState) : Bool :=
  (st.subChanges.isNone || decide (st.subChanges.getD 0 < st.changeCount)) ||
    -- "revert" changes size without increasing change count
    (st.lastSize.isSome && decide (st.lastSize ≠ some st.size))

/-- `ActualVim.mark_changed` (view.py:223-228). -/
def mark_changed (st : AVState) (advance : Nat := 0) : AVState :=
  { st with
    subChanges := some (st.changeCount + advance)
    lastSize := if advance ≠ 0 then none else some st.size }

/-- `ActualVim.sel_changed` (view.py:144-148): records the current selection
and reports whether it differs from the last recorded one. -/
def sel_changed (st : AVState) : Bool × AVState :=
  (decide (some st.sel ≠ st.lastSel), { st with lastSel := some st.sel })

/-- `view.replace(edit, Region(a, b), s)`: splice `s` over the character range
[a, b) and bump the host change counter. -/
def applyReplace (st : AVState) (a b : Nat) (s : List Char) : AVState :=
  { st with
    text := st.text.take a ++ s ++ st.text.drop b
    changeCount := st.changeCount + 1 }

/-- `ActualVim.status_from_vim` (view.py:456-461): refreshes the host status
bar; no binding state is touched. -/
def status_from_vim (st : AVState) : AVState × List Op :=
  (st, [Op.setStatusLine])

/-- `ActualVim.update_view` (view.py:277-293): applies the mode-derived host
settings, and when the binding is active resizes the engine UI and — when the
`indent_priority` setting is `"sublime"` — forwards the host indent settings
via `settings_to_vim`.  The host settings bookkeeping (`tmpsettings`,
`last_settings`) and the engine commands it emits are outside every claim and
are recorded as opaque operations. -/
def update_view (st : AVState) : AVState × List Op :=
  (st, [Op.updateSettings] ++
    if actual st then
      [Op.resize] ++ (if st.indentPriority = "sublime" then [Op.settingsToVim] else [])
    else [])

/-- `ActualVim.sel_from_vim` (view.py:412-454): pulls (mode, anchor, cursor)
from the engine status, optionally applies the engine's indent settings,
decodes the selection via `visual` and replaces the host selection (the
deferred `select` closure; deferrals are guaranteed to run in order, so it is
modelled as executing directly).  The closure's scroll-into-view logic only
queries and scrolls the host viewport; it is recorded as an opaque operation,
and on the very first application it is skipped and a fire-once retry timer is
scheduled instead (`first_scroll`). -/
def sel_from_vim (st : AVState) (eng : EngineState) : Option (AVState × List Op) :=
  if !st.loaded then some (st, [])
  else if !actual st then some (st, [])
  else
    let a := (eng.vline, eng.vcol)
    let b := (eng.cline, eng.ccol)
    let indentOps := if st.indentPriority = "vim" then [Op.setIndentSettings] else []
    match visual st.doc eng.mode a b with
    | none => none
    | some newSel =>
      -- the select closure: sel.clear(); sel.add_all(new_sel); self.sel_changed()
      let st1 := { st with sel := newSel, lastSel := some newSel }
      if st.firstScroll then
        some ({ st1 with firstScroll := false }, indentOps ++ [Op.setSel newSel])
      else
        some (st1, indentOps ++ [Op.setSel newSel, Op.ensureVisible])

/-- The argument of the single `vim.select(...)` call issued by `sel_to_vim`:
either a bare cursor move or an (anchor, cursor, mode) selection, positions
1-based with byte columns. -/
inductive SelectCall where
  | cursor (b : Nat × Nat)
  | sel (a b : Nat × Nat) (mode : String)
  deriving Repr, DecidableEq

/-- The selection-encoding computation of `ActualVim.sel_to_vim`
(view.py:371-407): which `vim.select` call is issued for a given host
selection and drag kind.  `none` models the `IndexError` on an empty host
selection (the host selection is never empty in practice). -/
def selToVimCall (d : Doc) (selList : List (Nat × Nat)) (drag : Option String) :
    Option SelectCall :=
  match selList with
  | [] => none
  | s0 :: _ =>
    let b0 := vim_rowcol d s0.2
    let b := (b0.1 + 1, b0.2 + 1)
    let mode := if drag = some "lines" then "V" else "v"
    if drag = some "columns" then
      let first := s0
      let last := selList.getLastD s0
      let a1 := vim_rowcol d last.1
      let b1 := vim_rowcol d first.2
      let a := (a1.1 + 1, a1.2 + 1)
      let b := (b1.1 + 1, b1.2 + 1)
      let b := if a.2 < b.2 then (b.1, b.2 - 1) else b
      some (.sel a b "<c-v>")
    else
      if s0.2 = s0.1 then some (.cursor b)
      else
        let a0 := vim_rowcol d s0.1
        let a := (a0.1 + 1, a0.2 + 1)
        let ab :=
          if tupGt a b then ((a.1, a.2 - 1), b)
          else if tupGt b a then (a, (b.1, b.2 - 1))
          else (a, b)
        let a := ab.1
        let b := ab.2
        if drag = some "lines" then
          if tupGt a b then some (.sel (a.1 - 1, a.2) b "V")
          else some (.sel a (b.1 - 1, b.2) "V")
        else some (.sel a b mode)

/-- `ActualVim.sel_to_vim` (view.py:363-410).  The `force` parameter is part
of the source signature but is not read by the guard. -/
def sel_to_vim (st : AVState) (eng : EngineState) (force : Bool := false) :
    Option (AVState × List Op) :=
  if !st.loaded then some (st, [])
  else if !actual st then some (st, [])
  else
    let chgSt := sel_changed st
    if chgSt.1 && !changed chgSt.2 then
      match selToVimCall st.doc st.sel st.dragSelect with
      | none => none
      | some call =>
        let selOp := match call with
          | .cursor b => Op.select1 b
          | .sel a b m => Op.select a b m
        match sel_from_vim chgSt.2 eng with
        | none => none
        | some (st2, ops2) =>
          let uv := update_view st2
          some (uv.1, [Op.forceReady, selOp] ++ ops2 ++ uv.2)
    else some (chgSt.2, [])

/-- `ActualVim.sync_to_vim` (view.py:315-331): push the host document to the
engine when the ledger demands it. -/
def sync_to_vim (st : AVState) (eng : EngineState) (force : Bool := false) :
    Option (AVState × List Op) :=
  if !st.loaded then some (st, [])
  else if st.block then some ({ st with blockHit := true }, [])
  else if !(changed st || force) || st.buf.isNone then
    if st.lastSize.isNone then some ({ st with lastSize := some st.size }, [])
    else some (st, [])
  else
    let st1 := mark_changed st
    match sel_to_vim st1 eng force with
    | none => none
    | some (st2, ops2) =>
      some ({ st2 with vimChanges := some eng.tick },
        [Op.forceReady, Op.bufSetLines st1.doc] ++ ops2)

/-- `sublime.Region.cover` on normalized (begin, end) pairs; only the begin of
the folded result is read by `sync_from_vim`. -/
def cover (r s : Nat × Nat) : Nat × Nat :=
  (min (min r.1 r.2) (min s.1 s.2), max (max r.1 r.2) (max s.1 s.2))

/-- The begin of the covering range of a host selection
(view.py:348-350: `r = sel[0]; for s in list(sel)[1:]: r = r.cover(s)`). -/
def coverBegin : List (Nat × Nat) → Nat
  | [] => 0
  | r :: rs =>
    let c := rs.foldl cover r
    min c.1 c.2

/-- `ActualVim.sync_from_vim` (view.py:333-361): pull the engine buffer into
the host document when the engine tick advanced, in two replace steps (tail
first, then the prefix), then re-mark the ledger and pull selection and
status.  The deferred `update` closure is modelled as executing directly
(deferrals are guaranteed to run, in order). -/
def sync_from_vim (st : AVState) (eng : EngineState) : Option (AVState × List Op) :=
  if !st.loaded then some (st, [])
  else if !actual st then some (st, [])
  else
    let pullStep : Option (AVState × List Op) :=
      -- only sync text content if vim buffer changed
      if st.vimChanges.isNone || decide (st.vimChanges.getD 0 < eng.tick) then
        match st.sel with
        | [] => none
        | r :: rs =>
          let text := List.intercalate ['\n'] eng.bufLines
          let beg := coverBegin (r :: rs)
          let st1 := { st with vimChanges := some eng.tick }
          let st2 := applyReplace st1 beg st1.size (text.drop beg)
          let st3 := applyReplace st2 0 beg (text.take beg)
          some (st3, [Op.replaceRegion beg st1.size (text.drop beg),
                      Op.replaceRegion 0 beg (text.take beg)])
      else some (st, [])
    match pullStep with
    | none => none
    | some (st1, ops1) =>
      let st2 := mark_changed st1
      match sel_from_vim st2 eng with
      | none => none
      | some (st3, ops3) =>
        let sv := status_from_vim st3
        some (sv.1, ops1 ++ ops3 ++ sv.2)

/-- `ActualVim.press` (view.py:463-480): enqueue the key, dequeue one key and
deliver it to the engine; when the engine reports itself ready, pull text and
refresh the view.  Returns the engine's readiness (`none` models Python's
implicit `return None` on the early exits). -/
def press (st : AVState) (eng : EngineState) (key : String) :
    Option (Option Bool × AVState × List Op) :=
  if !st.loaded then some (none, st, [])
  else if st.buf.isNone then some (none, st, [])
  else
    match st.keyq ++ [key] with
    | [] => none
    | k :: rest =>
      let st1 := { st with keyq := rest }
      if eng.pressReady then
        match sync_from_vim st1 eng with
        | none => none
        | some (st2, ops2) =>
          let uv := update_view st2
          some (some true, uv.1, [Op.pressKey k] ++ ops2 ++ uv.2)
      else some (some false, st1, [Op.pressKey k])

/-- Modelled from the spec: the engine collaborator (`neo.py`, not under src/)
stores the 1-based (row, byte-column) positions handed to `select` and its
`status()` reports them back 0-based (the source hands `status` values to
`vim_text_point` unshifted, while `sel_to_vim` adds 1 to each coordinate
before calling `select`); a bare cursor move leaves the engine in normal
mode ("n") with anchor = cursor. -/
def engineEcho : SelectCall → String × (Nat × Nat) × (Nat × Nat)
  | .cursor b => ("n", (b.1 - 1, b.2 - 1), (b.1 - 1, b.2 - 1))
  | .sel a b m => (m, (a.1 - 1, a.2 - 1), (b.1 - 1, b.2 - 1))

/-- host-to-engine selection encoding followed by engine-to-host decoding,
with the engine echoing the selection back unchanged. -/
def roundTrip (d : Doc) (selList : List (Nat × Nat)) (drag : Option String) :
    Option (List (Nat × Nat)) :=
  (selToVimCall d selList drag).bind fun c =>
    let e := engineEcho c
    visual d e.1 e.2.1 e.2.2

/-- Whether an operation is a mutation of the host document text. -/
def Op.isReplace : Op → Bool
  | .replaceRegion _ _ _ => true
  | _ => false

/-- The block-visual decode result as the specification describes it: one
region per row of the rectangle whose length reaches the left edge, clipped
to the row's length, rows shorter than the left edge skipped; per-row
endpoints reversed when the rectangle is dragged leftwards (`sc > ec`).
Stated from the spec's words to be compared against `visual`. -/
def blockRegionsSpec (d : Doc) (sr sc er ec : Nat) : List (Nat × Nat) :=
  let left := min sc ec
  let right := max sc ec + 1
  let top := min sr er
  let bot := max sr er
  (List.range' top (bot + 1 - top)).filterMap fun i =>
    if left ≤ rowLen d i then
      some (if ec < sc then
              (text_point d i (min right (rowLen d i)), text_point d i left)
            else
              (text_point d i left, text_point d i (min right (rowLen d i))))
    else none

/-- A document with a two-byte character, used by witnesses. -/
def exDoc2 : Doc := [['a', 'é', 'b'], ['c']]

/-- The spec's block-visual scenario: five rows, row 3 of length 4. -/
def exDoc3 : Doc :=
  [['a', 'a', 'a', 'a', 'a', 'a', 'a', 'a'],
   ['b', 'b', 'b', 'b', 'b', 'b', 'b', 'b'],
   ['c', 'c', 'c', 'c', 'c', 'c', 'c', 'c'],
   ['d', 'd', 'd', 'd'],
   ['e', 'e', 'e', 'e', 'e', 'e', 'e', 'e']]

/-- A two-line ASCII document (`"ab\ncd"`), used by counterexamples. -/
def exDoc4 : Doc := [['a', 'b'], ['c', 'd']]

/-- A six-row document for the line-visual witness. -/
def exDoc5 : Doc :=
  [['x', 'x'], ['y', 'y'], ['z', 'z'], ['w', 'w'], ['v', 'v'], ['u', 'u']]

/-- A concrete engine response used by witnesses. -/
def exEng : EngineState :=
  { tick := 1, bufLines := [['a']], mode := "n", vline := 0, vcol := 0,
    cline := 0, ccol := 0, pressReady := true }

/-- A concrete binding state used by witnesses: engine loaded and active,
ledger freshly marked. -/
def exSt : AVState :=
  { loaded := true, actualMode := true, actualIntercept := true,
    buf := some 1, subChanges := some 3, vimChanges := some 1,
    lastSize := some 1, lastSel := some [(0, 0)], keyq := [], block := false,
    blockHit := false, firstScroll := false, dragSelect := none,
    text := ['a'], changeCount := 3, sel := [(0, 0)],
    indentPriority := "vim" }

/-! ## Facts about UTF-8 prefix encoding and decoding -/

lemma utf8Len_nil : utf8Len [] = 0 := rfl

lemma utf8Len_cons (c : Char) (cs : List Char) :
    utf8Len (c :: cs) = c.utf8Size + utf8Len cs := by
  simp [utf8Len]

lemma utf8Len_append (xs ys : List Char) :
    utf8Len (xs ++ ys) = utf8Len xs + utf8Len ys := by
  simp [utf8Len]

lemma length_le_utf8Len (xs : List Char) : xs.length ≤ utf8Len xs := by
  induction xs with
  | nil => simp [utf8Len]
  | cons c cs ih =>
    have := Char.utf8Size_pos c
    rw [utf8Len_cons, List.length_cons]
    omega

lemma decodeBytesLen_zero (l : List Char) : decodeBytesLen l 0 = some 0 := by
  cases l <;> rfl

lemma decodeBytesLen_cons_pos (c : Char) (l : List Char) (b : Nat) (hb : 0 < b) :
    decodeBytesLen (c :: l) b =
      if c.utf8Size ≤ b then (decodeBytesLen l (b - c.utf8Size)).map (· + 1)
      else none := by
  obtain ⟨b', rfl⟩ : ∃ b', b = b' + 1 := ⟨b - 1, by omega⟩
  rfl

/-- Decoding exactly the bytes of a character prefix recovers its length,
whatever bytes follow. -/
lemma decodeBytesLen_exact (xs ys : List Char) :
    decodeBytesLen (xs ++ ys) (utf8Len xs) = some xs.length := by
  induction xs with
  | nil => simpa [utf8Len_nil] using decodeBytesLen_zero ys
  | cons c cs ih =>
    have hpos := Char.utf8Size_pos c
    rw [List.cons_append, utf8Len_cons,
      decodeBytesLen_cons_pos c (cs ++ ys) _ (by omega), if_pos (by omega)]
    have harith : c.utf8Size + utf8Len cs - c.utf8Size = utf8Len cs := by omega
    rw [harith, ih]
    rfl

/-- `utf8Len` of prefixes is strictly monotone. -/
lemma utf8Len_take_lt (l : List Char) (j k : Nat) (hjk : j < k) (hk : k ≤ l.length) :
    utf8Len (l.take j) < utf8Len (l.take k) := by
  have hsplit : l.take k = l.take j ++ (l.take k).drop j := by
    conv_lhs => rw [← List.take_append_drop j (l.take k)]
    rw [List.take_take, min_eq_left (le_of_lt hjk)]
  have hlen : ((l.take k).drop j).length = k - j := by
    simp [List.length_take, List.length_drop]
    omega
  have hne : 1 ≤ utf8Len ((l.take k).drop j) := by
    have := length_le_utf8Len ((l.take k).drop j)
    omega
  rw [hsplit, utf8Len_append]
  omega

/-! ## Facts about the document layout -/

lemma docChars_cons_cons (l l2 : Line) (ls : List Line) :
    docChars (l :: l2 :: ls) = l ++ '\n' :: docChars (l2 :: ls) := rfl

lemma rowOf_cons_succ (l : Line) (ls : List Line) (r : Nat) :
    rowOf (l :: ls) (r + 1) = rowOf ls r := rfl

lemma rowOf_cons_zero (l : Line) (ls : List Line) : rowOf (l :: ls) 0 = l := rfl

lemma lineStart_zero (d : Doc) : lineStart d 0 = 0 := by cases d <;> rfl

lemma lineStart_cons_succ (l : Line) (ls : List Line) (r : Nat) :
    lineStart (l :: ls) (r + 1) = l.length + 1 + lineStart ls r := rfl

/-- Dropping a row's start point from the flat text yields that row followed
by the remainder (which starts with the newline when the row is not last). -/
lemma drop_lineStart (d : Doc) (r : Nat) (hr : r < d.length) :
    ∃ z, (docChars d).drop (lineStart d r) = rowOf d r ++ z ∧
      (r + 1 < d.length → ∃ z', z = '\n' :: z') := by
  induction d generalizing r with
  | nil => simp at hr
  | cons l ls ih =>
    cases r with
    | zero =>
      cases ls with
      | nil =>
        refine ⟨[], ?_, by simp⟩
        simp [docChars, lineStart_zero, rowOf_cons_zero]
      | cons l2 ls' =>
        refine ⟨'\n' :: docChars (l2 :: ls'), ?_, fun _ => ⟨_, rfl⟩⟩
        simp [docChars_cons_cons, lineStart_zero, rowOf_cons_zero]
    | succ r' =>
      cases ls with
      | nil => simp at hr
      | cons l2 ls' =>
        have hr' : r' < (l2 :: ls').length := by
          simpa using Nat.lt_of_succ_lt_succ hr
        obtain ⟨z, hz, hz'⟩ := ih r' hr'
        refine ⟨z, ?_, ?_⟩
        · rw [docChars_cons_cons, lineStart_cons_succ, rowOf_cons_succ]
          rw [show l.length + 1 + lineStart (l2 :: ls') r'
              = l.length + (lineStart (l2 :: ls') r' + 1) by omega]
          rw [List.drop_append (lineStart (l2 :: ls') r' + 1), List.drop_succ_cons]
          exact hz
        · intro h
          exact hz' (by simpa using Nat.lt_of_succ_lt_succ h)

lemma lineStart_add_rowLen_le (d : Doc) (r : Nat) (hr : r < d.length) :
    lineStart d r + rowLen d r ≤ docLen d := by
  induction d generalizing r with
  | nil => simp at hr
  | cons l ls ih =>
    cases r with
    | zero =>
      cases ls with
      | nil => simp [lineStart_zero, rowLen, rowOf_cons_zero, docLen, docChars]
      | cons l2 ls' =>
        simp [lineStart_zero, rowLen, rowOf_cons_zero, docLen, docChars_cons_cons]
    | succ r' =>
      cases ls with
      | nil => simp at hr
      | cons l2 ls' =>
        have hr' : r' < (l2 :: ls').length := by
          simpa using Nat.lt_of_succ_lt_succ hr
        have := ih r' hr'
        rw [lineStart_cons_succ]
        simp only [docLen, docChars_cons_cons, List.length_append, List.length_cons]
        simp only [docLen] at this
        unfold rowLen at this ⊢
        rw [rowOf_cons_succ]
        omega

lemma text_point_eq (d : Doc) (r c : Nat) (hr : r < d.length) (hc : c ≤ rowLen d r) :
    text_point d r c = lineStart d r + c := by
  have := lineStart_add_rowLen_le d r hr
  unfold text_point
  omega

lemma rowcol_valid (d : Doc) (r c : Nat) (hr : r < d.length) (hc : c ≤ rowLen d r) :
    rowcol d (lineStart d r + c) = (r, c) := by
  induction d generalizing r with
  | nil => simp at hr
  | cons l ls ih =>
    cases r with
    | zero =>
      rw [lineStart_zero, Nat.zero_add]
      cases ls with
      | nil =>
        have hc' : c ≤ l.length := by simpa [rowLen, rowOf_cons_zero] using hc
        simp [rowcol, min_eq_left hc']
      | cons l2 ls' =>
        have hc' : c ≤ l.length := by simpa [rowLen, rowOf_cons_zero] using hc
        simp [rowcol, hc']
    | succ r' =>
      cases ls with
      | nil => simp at hr
      | cons l2 ls' =>
        have hr' : r' < (l2 :: ls').length := by
          simpa using Nat.lt_of_succ_lt_succ hr
        have hc' : c ≤ rowLen (l2 :: ls') r' := by
          simpa [rowLen, rowOf_cons_succ] using hc
        rw [lineStart_cons_succ]
        have hgt : ¬ (l.length + 1 + lineStart (l2 :: ls') r' + c ≤ l.length) := by omega
        simp only [rowcol, if_neg hgt]
        have harith : l.length + 1 + lineStart (l2 :: ls') r' + c - (l.length + 1)
            = lineStart (l2 :: ls') r' + c := by omega
        rw [harith, ih r' hr' hc']

lemma substr_row (d : Doc) (r c : Nat) (hr : r < d.length) (hc : c ≤ rowLen d r) :
    substr d (lineStart d r) (lineStart d r + c) = (rowOf d r).take c := by
  obtain ⟨z, hz, _⟩ := drop_lineStart d r hr
  unfold substr
  rw [min_eq_left (Nat.le_add_right _ _), max_eq_right (Nat.le_add_right _ _),
    Nat.add_sub_cancel_left, hz, List.take_append_of_le_length hc]

/-- `vim_rowcol` at a valid (row, character-column) position yields the row
and the UTF-8 byte length of the row's character prefix. -/
lemma vim_rowcol_text_point (d : Doc) (r c : Nat) (hr : r < d.length)
    (hc : c ≤ rowLen d r) :
    vim_rowcol d (text_point d r c) = (r, utf8Len ((rowOf d r).take c)) := by
  rw [text_point_eq d r c hr hc]
  unfold vim_rowcol
  rw [rowcol_valid d r c hr hc]
  simp only [Nat.add_sub_cancel]
  rw [substr_row d r c hr hc, List.take_take, min_self]

/-- `vim_text_point` at a valid byte boundary of a row recovers the host
point of the corresponding character column. -/
lemma vim_text_point_boundary (d : Doc) (r c : Nat) (hr : r < d.length)
    (hc : c ≤ rowLen d r) :
    vim_text_point d r (utf8Len ((rowOf d r).take c)) = some (text_point d r c) := by
  have hlen : ((rowOf d r).take c).length = c := by
    unfold rowLen at hc
    rw [List.length_take]
    omega
  have hcB : c ≤ utf8Len ((rowOf d r).take c) := by
    have := length_le_utf8Len ((rowOf d r).take c)
    omega
  unfold vim_text_point
  have hpos : text_point d r 0 = lineStart d r := by
    simpa using text_point_eq d r 0 hr (Nat.zero_le _)
  rw [hpos]
  obtain ⟨z, hz, _⟩ := drop_lineStart d r hr
  have hsub : substr d (lineStart d r) (lineStart d r + utf8Len ((rowOf d r).take c))
      = (rowOf d r).take c
        ++ ((rowOf d r ++ z).take (utf8Len ((rowOf d r).take c))).drop c := by
    unfold substr
    rw [min_eq_left (Nat.le_add_right _ _), max_eq_right (Nat.le_add_right _ _),
      Nat.add_sub_cancel_left, hz]
    conv_lhs =>
      rw [← List.take_append_drop c ((rowOf d r ++ z).take (utf8Len ((rowOf d r).take c)))]
    congr 1
    rw [List.take_take, min_eq_left hcB, List.take_append_of_le_length hc]
  simp only [hsub, decodeBytesLen_exact, hlen, Option.map_some']

/-- C2: for every valid (row, character-column) position, translating to the
engine's byte-column representation (`vim_rowcol`) and back
(`vim_text_point`) is the identity, including on lines with multi-byte UTF-8
characters; conversely, every valid byte boundary of a row — a byte column of
the form `utf8Len (line.take c)` — decodes to the point of character column
`c`, whose `vim_rowcol` returns the same byte column again. -/
theorem vim_point_roundtrip (d : Doc) (row c : Nat) (hrow : row < d.length)
    (hc : c ≤ rowLen d row) :
    vim_rowcol d (text_point d row c) = (row, utf8Len ((rowOf d row).take c)) ∧
    vim_text_point d row (utf8Len ((rowOf d row).take c))
      = some (text_point d row c) :=
  ⟨vim_rowcol_text_point d row c hrow hc, vim_text_point_boundary d row c hrow hc⟩

/-- Witness for C2 at a concrete multi-byte line: row 0 of `exDoc2` is
`"aéb"`; character column 2 sits at byte column 3, and both translations
invert each other there. -/
theorem vim_point_roundtrip_witness :
    vim_rowcol exDoc2 (text_point exDoc2 0 2)
      = (0, utf8Len ((rowOf exDoc2 0).take 2)) ∧
    vim_text_point exDoc2 0 (utf8Len ((rowOf exDoc2 0).take 2))
      = some (text_point exDoc2 0 2) :=
  vim_point_roundtrip exDoc2 0 2 (by decide) (by decide)

/-! ## Point-order facts -/

lemma lineStart_succ (d : Doc) (r : Nat) (hr : r + 1 < d.length) :
    lineStart d (r + 1) = lineStart d r + rowLen d r + 1 := by
  induction d generalizing r with
  | nil => simp at hr
  | cons l ls ih =>
    cases r with
    | zero =>
      rw [lineStart_cons_succ, lineStart_zero, lineStart_zero]
      simp [rowLen, rowOf_cons_zero]
    | succ r' =>
      have hr' : r' + 1 < ls.length := by simpa using Nat.lt_of_succ_lt_succ hr
      rw [lineStart_cons_succ, lineStart_cons_succ, ih r' hr']
      unfold rowLen
      rw [rowOf_cons_succ]
      omega

lemma lineStart_lt_lineStart (d : Doc) (r1 r2 : Nat) (h : r1 < r2)
    (h2 : r2 < d.length) :
    lineStart d r1 + rowLen d r1 < lineStart d r2 := by
  induction r2 with
  | zero => omega
  | succ r' ih =>
    rcases Nat.lt_or_ge r1 r' with h1 | h1
    · have := ih h1 (by omega)
      rw [lineStart_succ d r' h2]
      omega
    · have hr1 : r1 = r' := by omega
      subst hr1
      rw [lineStart_succ d r1 h2]
      omega

lemma text_point_lt_of_row_lt (d : Doc) (r1 c1 r2 c2 : Nat) (h : r1 < r2)
    (h2 : r2 < d.length) (hc1 : c1 ≤ rowLen d r1) (hc2 : c2 ≤ rowLen d r2) :
    text_point d r1 c1 < text_point d r2 c2 := by
  rw [text_point_eq d r1 c1 (by omega) hc1, text_point_eq d r2 c2 h2 hc2]
  have := lineStart_lt_lineStart d r1 r2 h h2
  omega

lemma lineRegion_text_point (d : Doc) (r c : Nat) (hr : r < d.length)
    (hc : c ≤ rowLen d r) :
    lineRegion d (text_point d r c) = (lineStart d r, lineStart d r + rowLen d r) := by
  unfold lineRegion
  rw [text_point_eq d r c hr hc, rowcol_valid d r c hr hc]

/-- C5: decoding a line-visual (anchor, cursor) yields a single region
spanning full line boundaries at both ends for any columns on the two rows,
with line start vs line end chosen by which row is smaller: when the anchor
row is the smaller one the region runs from the start of the anchor row to
the end of the cursor row, and symmetrically (reversed) otherwise. -/
theorem visual_line_decode (d : Doc) (sr sc er ec : Nat)
    (hsr : sr < d.length) (her : er < d.length)
    (hsc : ∃ k, k ≤ rowLen d sr ∧ sc = utf8Len ((rowOf d sr).take k))
    (hec : ∃ k, k ≤ rowLen d er ∧ ec = utf8Len ((rowOf d er).take k))
    (hne : sr ≠ er) :
    visual d "V" (sr, sc) (er, ec) =
      some [if sr < er then (lineStart d sr, lineStart d er + rowLen d er)
            else (lineStart d sr + rowLen d sr, lineStart d er)] := by
  obtain ⟨ka, hka, rfl⟩ := hsc
  obtain ⟨kb, hkb, rfl⟩ := hec
  unfold visual
  simp only [vim_text_point_boundary d sr ka hsr hka,
    vim_text_point_boundary d er kb her hkb]
  have hmode : MODES "V" = some "visual line" := rfl
  simp only [hmode]
  rw [if_true]
  rcases Nat.lt_or_ge sr er with h | h
  · have hlt := text_point_lt_of_row_lt d sr ka er kb h her hka hkb
    rw [if_neg (by omega), if_pos h,
      lineRegion_text_point d sr ka hsr hka, lineRegion_text_point d er kb her hkb]
  · have h' : er < sr := by omega
    have hlt := text_point_lt_of_row_lt d er kb sr ka h' hsr hkb hka
    rw [if_pos hlt, if_neg (by omega),
      lineRegion_text_point d sr ka hsr hka, lineRegion_text_point d er kb her hkb]

/-- Witness for C5: engine mode "visual line", anchor row 2, cursor row 5 on
a six-row document decode to the single region covering the full text of
lines 2 through 5 (points 6 to 17 of `exDoc5`), for mid-line columns. -/
theorem visual_line_decode_witness :
    visual exDoc5 "V" (2, 1) (5, 2) =
      some [if 2 < 5 then (lineStart exDoc5 2, lineStart exDoc5 5 + rowLen exDoc5 5)
            else (lineStart exDoc5 2 + rowLen exDoc5 2, lineStart exDoc5 5)] ∧
    visual exDoc5 "V" (2, 1) (5, 2) = some [(6, 17)] :=
  ⟨visual_line_decode exDoc5 2 1 5 2 (by decide) (by decide)
      ⟨1, by decide, by decide⟩ ⟨2, by decide, by decide⟩ (by decide),
    by decide⟩

/-! ## Block-visual decode -/

lemma visual_block_foldl (d : Doc) (sc ec : Nat) (l : List Nat)
    (acc : List (Nat × Nat)) :
    l.foldl (fun regions i =>
      if min sc ec ≤ rowLen d i then
        regions ++ [if ec < sc then
            (text_point d i (min (max sc ec + 1) (rowLen d i)), text_point d i (min sc ec))
          else
            (text_point d i (min sc ec), text_point d i (min (max sc ec + 1) (rowLen d i)))]
      else regions) acc
    = acc ++ l.filterMap fun i =>
        if min sc ec ≤ rowLen d i then
          some (if ec < sc then
              (text_point d i (min (max sc ec + 1) (rowLen d i)), text_point d i (min sc ec))
            else
              (text_point d i (min sc ec), text_point d i (min (max sc ec + 1) (rowLen d i))))
        else none := by
  induction l generalizing acc with
  | nil => simp
  | cons i is ih =>
    simp only [List.foldl_cons, List.filterMap_cons]
    by_cases h : min sc ec ≤ rowLen d i
    · simp only [if_pos h, ih, List.append_assoc, List.singleton_append]
    · simp only [if_neg h, ih]

/-- C3 (amended): block-visual decode produces exactly the regions of
`blockRegionsSpec` — one region per row of the rectangle whose length is at
least the left edge, clipped to the row's length; rows shorter than the left
edge are skipped. -/
theorem visual_block_decode (d : Doc) (sr sc er ec : Nat)
    (h1 : (vim_text_point d sr sc).isSome) (h2 : (vim_text_point d er ec).isSome) :
    visual d "<c-v>" (sr, sc) (er, ec) = some (blockRegionsSpec d sr sc er ec) := by
  obtain ⟨pa, hpa⟩ := Option.isSome_iff_exists.mp h1
  obtain ⟨pb, hpb⟩ := Option.isSome_iff_exists.mp h2
  unfold visual
  simp only [hpa, hpb]
  have hmode : MODES "<c-v>" = some "visual block" := rfl
  simp only [hmode]
  rw [if_neg (by decide), if_neg (by decide), if_true]
  congr 1
  unfold blockRegionsSpec
  simp only []
  rw [visual_block_foldl, List.nil_append]

/-- Counterexample for C3 as stated: in the spec's scenario (rectangle rows
2-4, columns 3-6, row 3 of length 4) the decode yields three regions, not
two — row 3's length 4 is not smaller than the left edge 3, so row 3 is
included (clipped), not skipped. -/
theorem visual_block_example_three_regions :
    visual exDoc3 "<c-v>" (2, 3) (4, 6)
      = some [(21, 25), (30, 31), (35, 39)] ∧
    (visual exDoc3 "<c-v>" (2, 3) (4, 6)).map List.length ≠ some 2 := by
  constructor
  · decide
  · decide

/-- Witness for C3: the amended per-row characterization applied to the
spec's scenario, where it evaluates to the three clipped regions. -/
theorem visual_block_decode_witness :
    visual exDoc3 "<c-v>" (2, 3) (4, 6) = some (blockRegionsSpec exDoc3 2 3 4 6) ∧
    blockRegionsSpec exDoc3 2 3 4 6 = [(21, 25), (30, 31), (35, 39)] :=
  ⟨visual_block_decode exDoc3 2 3 4 6 (by decide) (by decide), by decide⟩

/-! ## Decomposing a point into a valid (row, column) pair -/

lemma rowcol_spec (d : Doc) (p : Nat) (hd : d ≠ []) (hp : p ≤ docLen d) :
    (rowcol d p).1 < d.length ∧ (rowcol d p).2 ≤ rowLen d (rowcol d p).1 ∧
      lineStart d (rowcol d p).1 + (rowcol d p).2 = p := by
  induction d generalizing p with
  | nil => exact absurd rfl hd
  | cons l ls ih =>
    cases ls with
    | nil =>
      have hp' : p ≤ l.length := by
        simpa [docLen, docChars] using hp
      simp [rowcol, rowLen, rowOf_cons_zero, lineStart_zero, min_eq_left hp', hp']
    | cons l2 ls' =>
      by_cases hpl : p ≤ l.length
      · simp [rowcol, hpl, rowLen, rowOf_cons_zero, lineStart_zero]
      · have hlen : docLen (l :: l2 :: ls') = l.length + 1 + docLen (l2 :: ls') := by
          simp [docLen, docChars_cons_cons]
          omega
        have hp' : p - (l.length + 1) ≤ docLen (l2 :: ls') := by omega
        obtain ⟨h1, h2, h3⟩ := ih (p - (l.length + 1)) (List.cons_ne_nil l2 ls') hp'
        simp only [rowcol, if_neg hpl]
        refine ⟨by simpa using h1, ?_, ?_⟩
        · simpa [rowLen, rowOf_cons_succ] using h2
        · rw [lineStart_cons_succ]
          omega

lemma newline_before_lineStart (d : Doc) (r : Nat) (hr1 : 1 ≤ r) (hr : r < d.length) :
    (docChars d)[lineStart d r - 1]? = some '\n' := by
  obtain ⟨r', rfl⟩ : ∃ r', r = r' + 1 := ⟨r - 1, by omega⟩
  rw [lineStart_succ d r' hr]
  obtain ⟨z, hz, hz'⟩ := drop_lineStart d r' (by omega)
  obtain ⟨z', rfl⟩ := hz' hr
  have harith : lineStart d r' + rowLen d r' + 1 - 1
      = lineStart d r' + rowLen d r' := by omega
  rw [harith, ← List.getElem?_drop, hz,
    List.getElem?_append_right (by unfold rowLen; omega)]
  simp [rowLen]

lemma char_in_row (d : Doc) (r c : Nat) (hr : r < d.length) (hc1 : 1 ≤ c)
    (hc : c ≤ rowLen d r) :
    (docChars d)[lineStart d r + c - 1]? = (rowOf d r)[c - 1]? := by
  obtain ⟨z, hz, _⟩ := drop_lineStart d r hr
  have harith : lineStart d r + c - 1 = lineStart d r + (c - 1) := by omega
  rw [harith, ← List.getElem?_drop, hz,
    List.getElem?_append_left (by unfold rowLen at hc; omega)]

lemma utf8Len_take_step (l : Line) (c : Nat) (ch : Char) (hc : 1 ≤ c)
    (h : l[c - 1]? = some ch) :
    utf8Len (l.take c) = utf8Len (l.take (c - 1)) + ch.utf8Size := by
  obtain ⟨c', rfl⟩ : ∃ c', c = c' + 1 := ⟨c - 1, by omega⟩
  simp only [Nat.add_sub_cancel] at h ⊢
  rw [List.take_succ, h, utf8Len_append]
  simp [utf8Len]

lemma point_lex (d : Doc) (ra ca rb cb : Nat) (hra : ra < d.length)
    (hrb : rb < d.length) (hca : ca ≤ rowLen d ra) (hcb : cb ≤ rowLen d rb)
    (h : text_point d ra ca < text_point d rb cb) :
    ra < rb ∨ (ra = rb ∧ ca < cb) := by
  rcases Nat.lt_trichotomy ra rb with h1 | h1 | h1
  · exact Or.inl h1
  · subst h1
    rw [text_point_eq d ra ca hra hca, text_point_eq d ra cb hra hcb] at h
    exact Or.inr ⟨rfl, by omega⟩
  · exact absurd (text_point_lt_of_row_lt d rb cb ra ca h1 hra hcb hca)
      (by omega)

lemma tupGt_mk_iff (x1 y1 x2 y2 : Nat) :
    tupGt (x1, y1) (x2, y2) = true ↔ (x2 < x1 ∨ (x1 = x2 ∧ y2 < y1)) := by
  unfold tupGt
  split_ifs with h1 h2 <;> simp <;> omega

lemma tupGt_mk_eq_false (x1 y1 x2 y2 : Nat)
    (h : ¬ (x2 < x1 ∨ (x1 = x2 ∧ y2 < y1))) :
    tupGt (x1, y1) (x2, y2) = false := by
  rw [← Bool.not_eq_true, tupGt_mk_iff]
  exact h

/-- C4 (amended): for a single host selection (a, b) — zero-width, or whose
last covered character (the one before `max a b`) is a single-byte character
other than a newline, excluding the reversed one-character case `a = b + 1`
(whose direction the engine cannot represent: anchor and cursor coincide) —
encoding through `sel_to_vim`'s `vim.select` call and decoding the engine's
echoed (mode, anchor, cursor) through `visual` restores the selection
exactly, for forward and reversed selections alike. -/
theorem char_visual_roundtrip (d : Doc) (a b : Nat) (hd : d ≠ [])
    (ha : a ≤ docLen d) (hb : b ≤ docLen d)
    (hchar : a ≠ b → a ≠ b + 1 ∧
      ∃ ch, (docChars d)[max a b - 1]? = some ch ∧ ch ≠ '\n' ∧ ch.utf8Size = 1) :
    roundTrip d [(a, b)] none = some [(a, b)] := by
  obtain ⟨hra, hca, hpa⟩ := rowcol_spec d a hd ha
  obtain ⟨hrb, hcb, hpb⟩ := rowcol_spec d b hd hb
  set ra := (rowcol d a).1 with hra_def
  set ca := (rowcol d a).2 with hca_def
  set rb := (rowcol d b).1 with hrb_def
  set cb := (rowcol d b).2 with hcb_def
  have hae : text_point d ra ca = a := by
    rw [text_point_eq d ra ca hra hca]; omega
  have hbe : text_point d rb cb = b := by
    rw [text_point_eq d rb cb hrb hcb]; omega
  have hvra : vim_rowcol d a = (ra, utf8Len ((rowOf d ra).take ca)) := by
    rw [← hae, vim_rowcol_text_point d ra ca hra hca]
  have hvrb : vim_rowcol d b = (rb, utf8Len ((rowOf d rb).take cb)) := by
    rw [← hbe, vim_rowcol_text_point d rb cb hrb hcb]
  set Ba := utf8Len ((rowOf d ra).take ca) with hBa_def
  set Bb := utf8Len ((rowOf d rb).take cb) with hBb_def
  by_cases hab : a = b
  · -- zero-width selection: plain cursor move, echoed in normal mode
    subst hab
    have hcall : selToVimCall d [(a, a)] none
        = some (.cursor (ra + 1, Ba + 1)) := by
      unfold selToVimCall
      simp [hvra]
    have hvis : visual d "n" (ra, Ba) (ra, Ba) = some [(a, a)] := by
      unfold visual
      rw [hBa_def]
      simp only [vim_text_point_boundary d ra ca hra hca, hae]
      have hmode : MODES "n" = some "normal" := rfl
      simp [hmode]
    unfold roundTrip
    rw [hcall, Option.some_bind]
    simp only [engineEcho, Nat.add_sub_cancel]
    exact hvis
  · obtain ⟨hne1, ch, hch, hchn, hchs⟩ := hchar hab
    rcases Nat.lt_or_gt_of_ne hab with hlt | hgt
    · -- forward selection a < b: the cursor endpoint column shrinks by one
      rw [Nat.max_eq_right (le_of_lt hlt)] at hch
      have hcb1 : 1 ≤ cb := by
        by_contra h0
        have hbl : b = lineStart d rb := by omega
        have hrb1 : 1 ≤ rb := by
          by_contra hr0
          have hrb0 : rb = 0 := by omega
          rw [hrb0, lineStart_zero] at hbl
          omega
        have hnl := newline_before_lineStart d rb hrb1 hrb
        rw [← hbl] at hnl
        rw [hch] at hnl
        exact hchn (by injection hnl)
      have hchrow : (rowOf d rb)[cb - 1]? = some ch := by
        rw [← char_in_row d rb cb hrb hcb1 hcb,
          show lineStart d rb + cb - 1 = b - 1 by omega]
        exact hch
      have hstep : Bb = utf8Len ((rowOf d rb).take (cb - 1)) + 1 := by
        rw [hBb_def, utf8Len_take_step (rowOf d rb) cb ch hcb1 hchrow, hchs]
      have hvtpb : vim_text_point d rb (Bb - 1) = some (b - 1) := by
        rw [show Bb - 1 = utf8Len ((rowOf d rb).take (cb - 1)) by omega,
          vim_text_point_boundary d rb (cb - 1) hrb (by omega)]
        congr 1
        rw [text_point_eq d rb (cb - 1) hrb (by omega)]
        omega
      have hlex := point_lex d ra ca rb cb hra hrb hca hcb
        (by rw [hae, hbe]; exact hlt)
      have hBlt : ra = rb → Ba < Bb := by
        intro h
        rw [hBa_def, hBb_def, ← h]
        exact utf8Len_take_lt _ ca cb (by rcases hlex with h1 | ⟨_, h2⟩ <;> omega)
          (h ▸ hcb)
      have hgt1 : tupGt (ra + 1, Ba + 1) (rb + 1, Bb + 1) = false := by
        apply tupGt_mk_eq_false
        rcases hlex with h1 | ⟨h1, h2⟩
        · omega
        · have := hBlt h1
          omega
      have hgt2 : tupGt (rb + 1, Bb + 1) (ra + 1, Ba + 1) = true := by
        rw [tupGt_mk_iff]
        rcases hlex with h1 | ⟨h1, h2⟩
        · omega
        · have := hBlt h1
          omega
      have hcall : selToVimCall d [(a, b)] none
          = some (.sel (ra + 1, Ba + 1) (rb + 1, Bb) "v") := by
        unfold selToVimCall
        have hba : ¬ (b = a) := fun h => hab h.symm
        simp [hvra, hvrb, hba, hgt1, hgt2]
      have hvis : visual d "v" (ra, Ba) (rb, Bb - 1) = some [(a, b)] := by
        unfold visual
        conv_lhs => rw [hBa_def]
        simp only [vim_text_point_boundary d ra ca hra hca, hae, hvtpb]
        have hmode : MODES "v" = some "visual" := rfl
        simp only [hmode]
        rw [if_neg (by decide), if_true, if_neg (show ¬ (b - 1 < a) by omega),
          show b - 1 + 1 = b by omega]
      unfold roundTrip
      rw [hcall, Option.some_bind]
      simp only [engineEcho, Nat.add_sub_cancel]
      exact hvis
    · -- reversed selection b < a: the anchor endpoint column shrinks by one
      rw [Nat.max_eq_left (le_of_lt hgt)] at hch
      have hba1 : b + 1 < a := by omega
      have hca1 : 1 ≤ ca := by
        by_contra h0
        have hal : a = lineStart d ra := by omega
        have hra1 : 1 ≤ ra := by
          by_contra hr0
          have hra0 : ra = 0 := by omega
          rw [hra0, lineStart_zero] at hal
          omega
        have hnl := newline_before_lineStart d ra hra1 hra
        rw [← hal] at hnl
        rw [hch] at hnl
        exact hchn (by injection hnl)
      have hchrow : (rowOf d ra)[ca - 1]? = some ch := by
        rw [← char_in_row d ra ca hra hca1 hca,
          show lineStart d ra + ca - 1 = a - 1 by omega]
        exact hch
      have hstep : Ba = utf8Len ((rowOf d ra).take (ca - 1)) + 1 := by
        rw [hBa_def, utf8Len_take_step (rowOf d ra) ca ch hca1 hchrow, hchs]
      have hvtpa : vim_text_point d ra (Ba - 1) = some (a - 1) := by
        rw [show Ba - 1 = utf8Len ((rowOf d ra).take (ca - 1)) by omega,
          vim_text_point_boundary d ra (ca - 1) hra (by omega)]
        congr 1
        rw [text_point_eq d ra (ca - 1) hra (by omega)]
        omega
      have hlex := point_lex d rb cb ra ca hrb hra hcb hca
        (by rw [hae, hbe]; exact hgt)
      have hBlt : rb = ra → Bb < Ba := by
        intro h
        rw [hBa_def, hBb_def, ← h]
        exact utf8Len_take_lt _ cb ca (by rcases hlex with h1 | ⟨_, h2⟩ <;> omega)
          (h ▸ hca)
      have hgt1 : tupGt (ra + 1, Ba + 1) (rb + 1, Bb + 1) = true := by
        rw [tupGt_mk_iff]
        rcases hlex with h1 | ⟨h1, h2⟩
        · omega
        · have := hBlt h1
          omega
      have hcall : selToVimCall d [(a, b)] none
          = some (.sel (ra + 1, Ba) (rb + 1, Bb + 1) "v") := by
        unfold selToVimCall
        have hba : ¬ (b = a) := fun h => hab h.symm
        simp [hvra, hvrb, hba, hgt1]
      have hvis : visual d "v" (ra, Ba - 1) (rb, Bb) = some [(a, b)] := by
        unfold visual
        conv_lhs => rw [hBb_def]
        simp only [vim_text_point_boundary d rb cb hrb hcb, hbe, hvtpa]
        have hmode : MODES "v" = some "visual" := rfl
        simp only [hmode]
        rw [if_neg (by decide), if_true, if_pos (show b < a - 1 by omega),
          show a - 1 + 1 = a by omega]
      unfold roundTrip
      rw [hcall, Option.some_bind]
      simp only [engineEcho, Nat.add_sub_cancel]
      exact hvis

/-- Counterexample for C4 as stated: the round trip is not the identity for
every non-crossing single selection.  On `"ab\ncd"`, the forward selection
(0, 3) — whose last covered character is the newline — decodes to (0, 4); and
the reversed one-character selection (2, 1) on `exDoc5` comes back as the
forward (1, 2). -/
theorem char_visual_roundtrip_fails :
    (roundTrip exDoc4 [(0, 3)] none = some [(0, 4)] ∧
      roundTrip exDoc4 [(0, 3)] none ≠ some [(0, 3)]) ∧
    (roundTrip exDoc5 [(2, 1)] none = some [(1, 2)] ∧
      roundTrip exDoc5 [(2, 1)] none ≠ some [(2, 1)]) := by
  refine ⟨⟨?_, ?_⟩, ⟨?_, ?_⟩⟩ <;> decide

/-- Witness for C4: a forward and a reversed in-line selection on `"ab\ncd"`
both round-trip exactly. -/
theorem char_visual_roundtrip_witness :
    roundTrip exDoc4 [(3, 5)] none = some [(3, 5)] ∧
    roundTrip exDoc4 [(5, 3)] none = some [(5, 3)] :=
  ⟨char_visual_roundtrip exDoc4 3 5 (by decide) (by decide) (by decide)
      (fun _ => ⟨by omega, 'd', by decide, by decide, by decide⟩),
    char_visual_roundtrip exDoc4 5 3 (by decide) (by decide) (by decide)
      (fun _ => ⟨by omega, 'd', by decide, by decide, by decide⟩)⟩

/-! ## Engine-not-loaded and no-buffer guards -/

/-- C9: when the engine is not loaded, every sync, selection and key-press
operation returns immediately as a silent no-op: the binding state is
unchanged, no external operation is performed, and `press` reports `none`. -/
theorem not_loaded_noops (st : AVState) (eng : EngineState) (k : String)
    (force : Bool) (h : st.loaded = false) :
    sync_to_vim st eng force = some (st, []) ∧
    sync_from_vim st eng = some (st, []) ∧
    sel_to_vim st eng force = some (st, []) ∧
    sel_from_vim st eng = some (st, []) ∧
    press st eng k = some (none, st, []) := by
  refine ⟨?_, ?_, ?_, ?_, ?_⟩
  · unfold sync_to_vim
    simp [h]
  · unfold sync_from_vim
    simp [h]
  · unfold sel_to_vim
    simp [h]
  · unfold sel_from_vim
    simp [h]
  · unfold press
    simp [h]

/-- Witness for C9 at a concrete not-loaded binding state. -/
theorem not_loaded_noops_witness :
    sync_to_vim { exSt with loaded := false } exEng false
      = some ({ exSt with loaded := false }, []) ∧
    press { exSt with loaded := false } exEng "x"
      = some (none, { exSt with loaded := false }, []) :=
  ⟨(not_loaded_noops _ exEng "x" false rfl).1,
    (not_loaded_noops _ exEng "x" false rfl).2.2.2.2⟩

/-- C10: `press` on a binding whose engine buffer was never created returns
`None` without enqueuing the key, without syncing and without raising: the
state (including the key queue) is untouched and no operation is emitted. -/
theorem press_without_buffer (st : AVState) (eng : EngineState) (k : String)
    (h : st.buf = none) :
    press st eng k = some (none, st, []) := by
  unfold press
  cases hload : st.loaded <;> simp [h, hload]

/-- Witness for C10 at a concrete loaded-but-unactivated binding. -/
theorem press_without_buffer_witness :
    press { exSt with buf := none } exEng "j"
      = some (none, { exSt with buf := none }, []) :=
  press_without_buffer _ exEng "j" rfl

/-! ## Selection-push guard -/

lemma changed_set_lastSel (st : AVState) (v : Option (List (Nat × Nat))) :
    changed { st with lastSel := v } = changed st := rfl

lemma changed_mk_lastSel (st : AVState) (ld : Bool) (v : Option (List (Nat × Nat))) :
    changed { st with loaded := ld, lastSel := v } = changed st := rfl

/-- C8: `sel_to_vim` with `force = false` sends nothing to the engine when
the current selection equals the last-known one (the state is returned
untouched), and likewise performs no engine call whenever a text push is
pending (`changed` is true) — the selection is then carried by the text push
instead. -/
theorem sel_to_vim_skip (st : AVState) (eng : EngineState) :
    (st.lastSel = some st.sel → sel_to_vim st eng false = some (st, [])) ∧
    (changed st = true → ∃ st2, sel_to_vim st eng false = some (st2, [])) := by
  constructor
  · intro h
    unfold sel_to_vim
    cases hload : st.loaded
    · simp [hload]
    · cases hact : actual st
      · simp [hload, hact]
      · simp only [hload, hact, sel_changed, Bool.not_true, Bool.false_eq_true,
          if_false, ← h]
        simp [← h]
        rw [← hload]
  · intro hc
    unfold sel_to_vim
    cases hload : st.loaded
    · exact ⟨st, by simp [hload]⟩
    · cases hact : actual st
      · exact ⟨st, by simp [hload, hact]⟩
      · refine ⟨{ st with lastSel := some st.sel }, ?_⟩
        simp [hload, hact, sel_changed, changed_mk_lastSel, hc]

/-- Witness for C8: the unchanged-selection skip path at a concrete state
(`exSt` has its current selection recorded as last-known). -/
theorem sel_to_vim_skip_witness :
    sel_to_vim exSt exEng false = some (exSt, []) :=
  (sel_to_vim_skip exSt exEng).1 rfl

/-! ## The change-tracking ledger -/

/-- C6: the push-needed predicate `changed` is false immediately after
`mark_changed` with no subsequent document change; true after any host
change-counter increment; true on a size mismatch with no counter increment
(the revert case); true for a fresh binding with no recorded counter — and on
such a fresh binding (loaded, unblocked, buffer present) `sync_to_vim`
pushes the buffer content. -/
theorem push_needed_ledger (st : AVState) (eng : EngineState) :
    (changed (mark_changed st) = false) ∧
    (∀ n, changed { mark_changed st with
        changeCount := (mark_changed st).changeCount + n + 1 } = true) ∧
    (∀ t : List Char, t.length ≠ st.text.length →
      changed { mark_changed st with text := t } = true) ∧
    (st.subChanges = none → changed st = true) ∧
    (st.subChanges = none → st.loaded = true → st.block = false →
      st.buf.isSome = true → ∀ st2 ops, sync_to_vim st eng false = some (st2, ops) →
        Op.bufSetLines st.doc ∈ ops) := by
  refine ⟨?_, ?_, ?_, ?_, ?_⟩
  · simp [changed, mark_changed, AVState.size]
  · intro n
    simp [changed, mark_changed, AVState.size]
    omega
  · intro t ht
    simp [changed, mark_changed, AVState.size]
    omega
  · intro h
    simp [changed, h]
  · intro hs hl hb hbuf st2 ops h
    unfold sync_to_vim at h
    simp only [hl, hb, Bool.not_true, Bool.false_eq_true, if_false] at h
    have hbuf' : st.buf.isNone = false := by
      cases hbufv : st.buf
      · rw [hbufv] at hbuf
        simp at hbuf
      · rfl
    rw [if_neg (by simp [changed, hs, hbuf'])] at h
    rcases hm : sel_to_vim (mark_changed st) eng false with _ | p
    · rw [hm] at h
      exact absurd h (by simp)
    · rw [hm] at h
      obtain ⟨st3, ops3⟩ := p
      simp only [Option.some.injEq, Prod.mk.injEq] at h
      obtain ⟨-, rfl⟩ := h
      have : AVState.doc (mark_changed st) = st.doc := rfl
      simp [this]

/-- Witness for C6: on the concrete `exSt`, the predicate is false right
after `mark_changed`; with no recorded counter it is true, and the first
`sync_to_vim` emits the buffer-content push. -/
theorem push_needed_ledger_witness :
    changed (mark_changed exSt) = false ∧
    changed { exSt with subChanges := none } = true ∧
    Op.bufSetLines (AVState.doc { exSt with subChanges := none })
      ∈ [Op.forceReady, Op.bufSetLines [['a']]] :=
  ⟨(push_needed_ledger exSt exEng).1,
    (push_needed_ledger { exSt with subChanges := none } exEng).2.2.2.1 rfl,
    (push_needed_ledger { exSt with subChanges := none } exEng).2.2.2.2
      rfl rfl rfl rfl exSt [Op.forceReady, Op.bufSetLines [['a']]] (by decide)⟩

/-! ## Pull-side synchronization -/

/-- `sel_from_vim` never touches the document text, the load/active flags or
the engine-tick ledger, and never emits a text replacement. -/
lemma sel_from_vim_spec (st : AVState) (eng : EngineState) (st2 : AVState)
    (ops : List Op) (h : sel_from_vim st eng = some (st2, ops)) :
    st2.loaded = st.loaded ∧ st2.actualMode = st.actualMode ∧
    st2.actualIntercept = st.actualIntercept ∧ st2.vimChanges = st.vimChanges ∧
    st2.text = st.text ∧ ∀ op ∈ ops, op.isReplace = false := by
  unfold sel_from_vim at h
  cases hl : st.loaded
  · rw [hl] at h
    simp only [Bool.not_false, if_true, Option.some.injEq, Prod.mk.injEq] at h
    obtain ⟨rfl, rfl⟩ := h
    exact ⟨hl, rfl, rfl, rfl, rfl, by simp⟩
  · cases hact : actual st
    · rw [hl, hact] at h
      simp only [Bool.not_true, Bool.not_false, Bool.false_eq_true, if_false,
        if_true, Option.some.injEq, Prod.mk.injEq] at h
      obtain ⟨rfl, rfl⟩ := h
      exact ⟨hl, rfl, rfl, rfl, rfl, by simp⟩
    · rw [hl, hact] at h
      simp only [Bool.not_true, Bool.false_eq_true, if_false] at h
      rcases hv : visual st.doc eng.mode (eng.vline, eng.vcol)
          (eng.cline, eng.ccol) with _ | newSel
      · rw [hv] at h
        simp at h
      · rw [hv] at h
        cases hfs : st.firstScroll
        · simp only [hfs, Bool.false_eq_true, if_false, Option.some.injEq,
            Prod.mk.injEq] at h
          obtain ⟨rfl, rfl⟩ := h
          refine ⟨rfl, rfl, rfl, rfl, rfl, ?_⟩
          intro op hop
          by_cases hip : st.indentPriority = "vim"
          · simp [hip] at hop
            rcases hop with rfl | rfl | rfl <;> rfl
          · simp [hip] at hop
            rcases hop with rfl | rfl <;> rfl
        · simp only [hfs, if_true, Option.some.injEq, Prod.mk.injEq] at h
          obtain ⟨rfl, rfl⟩ := h
          refine ⟨rfl, rfl, rfl, rfl, rfl, ?_⟩
          intro op hop
          by_cases hip : st.indentPriority = "vim"
          · simp [hip] at hop
            rcases hop with rfl | rfl <;> rfl
          · simp [hip] at hop
            subst hop
            rfl

/-- On the active path, `sync_from_vim` keeps the binding loaded and active
and leaves the engine-tick ledger at a value at least the observed tick. -/
lemma sync_from_vim_track (st : AVState) (eng : EngineState) (st1 : AVState)
    (ops1 : List Op) (hl : st.loaded = true) (hact : actual st = true)
    (h : sync_from_vim st eng = some (st1, ops1)) :
    st1.loaded = true ∧ actual st1 = true ∧
    ∃ v, st1.vimChanges = some v ∧ eng.tick ≤ v := by
  unfold sync_from_vim at h
  rw [hl, hact] at h
  simp only [Bool.not_true, Bool.false_eq_true, if_false] at h
  by_cases hc : (st.vimChanges.isNone
      || decide (st.vimChanges.getD 0 < eng.tick)) = true
  · rw [if_pos hc] at h
    rcases hsel : st.sel with _ | ⟨r, rs⟩
    · rw [hsel] at h
      simp at h
    · rw [hsel] at h
      dsimp only at h
      split at h
      · exact absurd h (by simp)
      · rename_i st4 ops4 hsv
        simp only [status_from_vim, Option.some.injEq, Prod.mk.injEq] at h
        obtain ⟨rfl, -⟩ := h
        obtain ⟨f1, f2, f3, f4, -, -⟩ := sel_from_vim_spec _ _ _ _ hsv
        refine ⟨f1.trans rfl, ?_, eng.tick, f4.trans rfl, le_refl _⟩
        unfold actual at hact ⊢
        rw [f1, f2, f3]
        rw [hl] at hact
        exact hact
  · rw [if_neg (by simpa using hc)] at h
    dsimp only at h
    split at h
    · exact absurd h (by simp)
    · rename_i st4 ops4 hsv
      simp only [status_from_vim, Option.some.injEq, Prod.mk.injEq] at h
      obtain ⟨rfl, -⟩ := h
      obtain ⟨f1, f2, f3, f4, -, -⟩ := sel_from_vim_spec _ _ _ _ hsv
      simp only [Bool.or_eq_true, not_or, Bool.not_eq_true,
        decide_eq_true_eq, Option.isNone_eq_false_iff,
        Option.isSome_iff_exists, not_lt] at hc
      obtain ⟨⟨v, hv⟩, hlt⟩ := hc
      refine ⟨by rw [f1]; exact hl, ?_, v, ?_, ?_⟩
      · unfold actual at hact ⊢
        rw [f1, f2, f3]
        exact hact
      · rw [f4]
        exact hv
      · rw [hv] at hlt
        simpa using hlt

/-- C7: `sync_from_vim` is idempotent with respect to content: a second call
whose observed engine tick has not advanced past the first call's performs no
content replacement on the host document. -/
theorem sync_from_vim_no_second_replace (st : AVState) (eng eng2 : EngineState)
    (hT : eng2.tick ≤ eng.tick) (st1 st2 : AVState) (ops1 ops2 : List Op)
    (h1 : sync_from_vim st eng = some (st1, ops1))
    (h2 : sync_from_vim st1 eng2 = some (st2, ops2)) :
    ∀ op ∈ ops2, op.isReplace = false := by
  cases hl : st.loaded
  · unfold sync_from_vim at h1
    rw [hl] at h1
    simp only [Bool.not_false, if_true, Option.some.injEq, Prod.mk.injEq] at h1
    obtain ⟨rfl, rfl⟩ := h1
    unfold sync_from_vim at h2
    rw [hl] at h2
    simp only [Bool.not_false, if_true, Option.some.injEq, Prod.mk.injEq] at h2
    obtain ⟨rfl, rfl⟩ := h2
    simp
  · cases hact : actual st
    · unfold sync_from_vim at h1
      rw [hl, hact] at h1
      simp only [Bool.not_true, Bool.not_false, Bool.false_eq_true, if_false,
        if_true, Option.some.injEq, Prod.mk.injEq] at h1
      obtain ⟨rfl, rfl⟩ := h1
      unfold sync_from_vim at h2
      rw [hl, hact] at h2
      simp only [Bool.not_true, Bool.not_false, Bool.false_eq_true, if_false,
        if_true, Option.some.injEq, Prod.mk.injEq] at h2
      obtain ⟨rfl, rfl⟩ := h2
      simp
    · obtain ⟨hl1, hact1, v, hv, htv⟩ :=
        sync_from_vim_track st eng st1 ops1 hl hact h1
      unfold sync_from_vim at h2
      rw [hl1, hact1] at h2
      simp only [Bool.not_true, Bool.false_eq_true, if_false] at h2
      have hcond : (st1.vimChanges.isNone
          || decide (st1.vimChanges.getD 0 < eng2.tick)) = false := by
        rw [hv]
        simp
        omega
      rw [if_neg (by simp [hcond])] at h2
      dsimp only at h2
      split at h2
      · exact absurd h2 (by simp)
      · rename_i st4 ops4 hsv
        simp only [status_from_vim, Option.some.injEq, Prod.mk.injEq] at h2
        obtain ⟨-, rfl⟩ := h2
        intro op hop
        simp only [List.nil_append, List.mem_append, List.mem_singleton] at hop
        rcases hop with hop | rfl
        · exact (sel_from_vim_spec _ _ _ _ hsv).2.2.2.2.2 op hop
        · rfl

/-- Witness for C7 at a concrete run: the first call pulls (the engine tick 5
is fresh against the `none` ledger), the second call with the same tick emits
no replacement. -/
theorem sync_from_vim_no_second_replace_witness :
    Op.isReplace (Op.setSel [(0, 0)]) = false :=
  sync_from_vim_no_second_replace { exSt with vimChanges := none }
    { exEng with tick := 5 } { exEng with tick := 5 } (le_refl 5)
    { exSt with subChanges := some 5, vimChanges := some 5, changeCount := 5 }
    { exSt with subChanges := some 5, vimChanges := some 5, changeCount := 5 }
    [Op.replaceRegion 0 1 ['a'], Op.replaceRegion 0 0 [], Op.setIndentSettings,
      Op.setSel [(0, 0)], Op.ensureVisible, Op.setStatusLine]
    [Op.setIndentSettings, Op.setSel [(0, 0)], Op.ensureVisible,
      Op.setStatusLine]
    (by decide) (by decide) (Op.setSel [(0, 0)]) (by decide)

/-! ## The two-step pull replacement -/

lemma coverBegin_le (r : Nat × Nat) (rs : List (Nat × Nat)) (n : Nat)
    (h : ∀ s ∈ r :: rs, s.1 ≤ n ∧ s.2 ≤ n) : coverBegin (r :: rs) ≤ n := by
  have key : ∀ (l : List (Nat × Nat)) (acc : Nat × Nat),
      min (l.foldl cover acc).1 (l.foldl cover acc).2 ≤ min acc.1 acc.2 := by
    intro l
    induction l with
    | nil => intro acc; exact le_refl _
    | cons s ss ih =>
      intro acc
      refine le_trans (ih (cover acc s)) ?_
      simp only [cover]
      omega
  have h1 := key rs r
  have hr := h r (List.mem_cons_self r rs)
  simp only [coverBegin]
  omega

/-- Replacing tail-first then prefix rebuilds exactly the new text. -/
lemma two_step_replace_text (old text : List Char) (beg : Nat)
    (hbeg : beg ≤ old.length) :
    (old.take beg ++ text.drop beg ++ old.drop old.length).take 0
      ++ text.take beg
      ++ (old.take beg ++ text.drop beg ++ old.drop old.length).drop beg
      = text := by
  rw [List.drop_length, List.append_nil, List.take_zero, List.nil_append]
  have hlen : (old.take beg).length = beg := by
    rw [List.length_take]
    omega
  have hdrop := List.drop_left (old.take beg) (text.drop beg)
  rw [hlen] at hdrop
  rw [hdrop, List.take_append_drop]

/-- C1: when `sync_from_vim` pulls because the engine tick advanced, it
replaces the host document in exactly two steps — first the region from the
selection's covering-range start to document end, then the region from
document start to the covering-range start — and afterwards the host text
equals the engine buffer's lines joined with newline.  No further replacement
follows in the same pass. -/
theorem sync_from_vim_two_step_replace (st : AVState) (eng : EngineState)
    (st1 : AVState) (ops1 : List Op)
    (hl : st.loaded = true) (hact : actual st = true)
    (ht : st.vimChanges.isNone = true ∨ st.vimChanges.getD 0 < eng.tick)
    (hsel : ∀ r ∈ st.sel, r.1 ≤ st.size ∧ r.2 ≤ st.size)
    (hne : st.sel ≠ [])
    (h : sync_from_vim st eng = some (st1, ops1)) :
    ops1.take 2 = [Op.replaceRegion (coverBegin st.sel) st.size
        ((List.intercalate ['\n'] eng.bufLines).drop (coverBegin st.sel)),
      Op.replaceRegion 0 (coverBegin st.sel)
        ((List.intercalate ['\n'] eng.bufLines).take (coverBegin st.sel))] ∧
    (∀ op ∈ ops1.drop 2, op.isReplace = false) ∧
    st1.text = List.intercalate ['\n'] eng.bufLines := by
  unfold sync_from_vim at h
  rw [hl, hact] at h
  simp only [Bool.not_true, Bool.false_eq_true, if_false] at h
  have hcond : (st.vimChanges.isNone
      || decide (st.vimChanges.getD 0 < eng.tick)) = true := by
    rcases ht with h' | h' <;> simp [h']
  rw [if_pos hcond] at h
  rcases hselv : st.sel with _ | ⟨r, rs⟩
  · exact absurd hselv hne
  · rw [hselv] at h
    have hbeg : coverBegin (r :: rs) ≤ st.text.length := by
      refine coverBegin_le r rs st.text.length ?_
      rw [← hselv]
      exact hsel
    dsimp only at h
    split at h
    · exact absurd h (by simp)
    · rename_i st4 ops4 hsv
      simp only [status_from_vim, Option.some.injEq, Prod.mk.injEq] at h
      obtain ⟨rfl, rfl⟩ := h
      refine ⟨rfl, ?_, ?_⟩
      · intro op hop
        simp only [List.cons_append, List.nil_append, List.drop_succ_cons,
          List.drop_zero, List.mem_append, List.mem_singleton] at hop
        rcases hop with hop | rfl
        · exact (sel_from_vim_spec _ _ _ _ hsv).2.2.2.2.2 op hop
        · rfl
      · have htext := (sel_from_vim_spec _ _ _ _ hsv).2.2.2.2.1
        rw [htext]
        simp only [mark_changed, applyReplace, AVState.size]
        exact two_step_replace_text st.text (List.intercalate ['\n'] eng.bufLines)
          (coverBegin (r :: rs)) hbeg

/-- Witness for C1 at a concrete pull: the trace opens with the two replaces
(tail region first, then the prefix) and the resulting text is the joined
engine buffer. -/
theorem sync_from_vim_two_step_replace_witness :
    [Op.replaceRegion 0 1 ['a'], Op.replaceRegion 0 0 [], Op.setIndentSettings,
        Op.setSel [(0, 0)], Op.ensureVisible, Op.setStatusLine].take 2
      = [Op.replaceRegion 0 1 ['a'], Op.replaceRegion 0 0 []] ∧
    AVState.text
        { exSt with subChanges := some 5, vimChanges := some 5, changeCount := 5 }
      = ['a'] := by
  have h := sync_from_vim_two_step_replace { exSt with vimChanges := none }
    { exEng with tick := 5 }
    { exSt with subChanges := some 5, vimChanges := some 5, changeCount := 5 }
    [Op.replaceRegion 0 1 ['a'], Op.replaceRegion 0 0 [], Op.setIndentSettings,
      Op.setSel [(0, 0)], Op.ensureVisible, Op.setStatusLine]
    (by decide) (by decide) (Or.inl (by decide)) (by decide) (by decide)
    (by decide)
  exact ⟨h.1.trans (by decide), h.2.2.trans (by decide)⟩

end ActualVim
